import Mathlib

/-!
Verification of the code-buddy core: the ChangeCache fragment store, the
positional line differ, the Mode A edit-event pipeline, and the streaming
NDJSON inference client, shallowly embedded from the TypeScript sources.
-/

namespace CodeBuddy

/-! ## JavaScript string primitives

The TypeScript sources use a handful of `String.prototype` methods:
`trim`, `includes`, `split` on a plain separator, `split` on the regex
matching an optional carriage return followed by a newline, and
`Array.prototype.join`.  They are embedded here over `List Char` with
purely structural recursion so that every concrete evaluation reduces in
the kernel.
-/

/-- Whitespace as recognized by JavaScript `String.prototype.trim`
(the ASCII whitespace characters and the no-break space; the remaining
Unicode space separators do not occur in any input considered here). -/
def isJsWs (c : Char) : Bool :=
  c == ' ' || c == '\t' || c == '\n' || c == '\r' ||
  c == Char.ofNat 11 || c == Char.ofNat 12 || c == Char.ofNat 160

/-- Strip leading and trailing JS whitespace from a character list. -/
def trimChars (l : List Char) : List Char :=
  ((l.dropWhile isJsWs).reverse.dropWhile isJsWs).reverse

/-- JavaScript `s.trim()`. -/
def jsTrim (s : String) : String :=
  ⟨trimChars s.data⟩

/-- Bool-valued list prefix test (JS strings are compared by content). -/
def beginsWith : List Char → List Char → Bool
  | [], _ => true
  | a :: as, hay =>
    match hay with
    | [] => false
    | b :: bs => if a == b then beginsWith as bs else false

/-- Helper for substring containment: does `needle` occur as a contiguous
run inside the haystack? -/
def occursIn (needle : List Char) : List Char → Bool
  | [] => beginsWith needle []
  | c :: t => beginsWith needle (c :: t) || occursIn needle t

/-- JavaScript `s.includes(sub)`: substring containment. -/
def strIncludes (s sub : String) : Bool :=
  occursIn sub.data s.data

/-- JavaScript `s.split("\n")` on the character level: every newline
separates two (possibly empty) pieces. -/
def splitOnNl : List Char → List (List Char)
  | [] => [[]]
  | c :: cs =>
    match splitOnNl cs with
    | [] => [[c]]
    | h :: t => if c == '\n' then [] :: h :: t else (c :: h) :: t

/-- JavaScript `s.split("\n")`. -/
def splitNl (s : String) : List String :=
  (splitOnNl s.data).map (fun l => ⟨l⟩)

/-- JavaScript `arr.join(sep)`. -/
def joinSep (sep : String) : List String → String
  | [] => ""
  | [x] => x
  | x :: y :: t => x ++ sep ++ joinSep sep (y :: t)

/-! ## ChangeCache (src/change-cache.ts)

The cache is a bounded, deduplicating, order-preserving store of trimmed
text fragments with creation timestamps.  `Date.now()` is passed in
explicitly as the `now` argument of `add`.
-/

/-- One stored fragment: its (trimmed) text and its creation timestamp. -/
structure Change where
  text : String
  ts : Nat
deriving DecidableEq

/-- The cache state: the configured capacity and the fragment sequence. -/
structure ChangeCache where
  maxSize : Nat
  changes : List Change
deriving DecidableEq

/-- The constructor `new ChangeCache(maxSize = 10)`. -/
def ChangeCache.new (maxSize : Nat := 10) : ChangeCache :=
  ⟨maxSize, []⟩

/-- `ChangeCache.add`: trim, no-op on empty or duplicate text, otherwise
push to the end; if the length now exceeds `maxSize`, shift off index 0. -/
def ChangeCache.add (c : ChangeCache) (snippet : String) (now : Nat) : ChangeCache :=
  let snippet := jsTrim snippet
  if snippet == "" then c
  else if c.changes.any (fun ch => ch.text == snippet) then c
  else
    let pushed := c.changes ++ [⟨snippet, now⟩]
    if c.maxSize < pushed.length then ⟨c.maxSize, pushed.tail⟩
    else ⟨c.maxSize, pushed⟩

/-- `ChangeCache.removeDeleted`: keep exactly the fragments whose text the
current content still contains. -/
def ChangeCache.removeDeleted (c : ChangeCache) (currentContent : String) : ChangeCache :=
  ⟨c.maxSize, c.changes.filter (fun ch => strIncludes currentContent ch.text)⟩

/-- `ChangeCache.clear`. -/
def ChangeCache.clear (c : ChangeCache) : ChangeCache :=
  ⟨c.maxSize, []⟩

/-- `ChangeCache.isEmpty`. -/
def ChangeCache.isEmpty (c : ChangeCache) : Bool :=
  c.changes.length == 0

/-- `ChangeCache.size`. -/
def ChangeCache.size (c : ChangeCache) : Nat :=
  c.changes.length

/-- `ChangeCache.getContext`: fragment texts joined by blank lines. -/
def ChangeCache.getContext (c : ChangeCache) : String :=
  joinSep "\n\n" (c.changes.map (fun ch => ch.text))

/-- The cache states reachable from a freshly constructed cache by the
operations the class exposes. -/
inductive ChangeCache.Reachable : ChangeCache → Prop
  | init (n : Nat) : ChangeCache.Reachable (ChangeCache.new n)
  | add {c : ChangeCache} (s : String) (t : Nat) :
      ChangeCache.Reachable c → ChangeCache.Reachable (c.add s t)
  | removeDeleted {c : ChangeCache} (content : String) :
      ChangeCache.Reachable c → ChangeCache.Reachable (c.removeDeleted content)
  | clear {c : ChangeCache} :
      ChangeCache.Reachable c → ChangeCache.Reachable c.clear

/-! ## Basic lemmas about the string primitives -/

theorem dropWhile_idem (p : Char → Bool) (l : List Char) :
    (l.dropWhile p).dropWhile p = l.dropWhile p := by
  induction l with
  | nil => rfl
  | cons c t ih =>
    by_cases h : p c
    · simp [List.dropWhile, h, ih]
    · simp [List.dropWhile, h]

theorem head?_dropWhile (p : Char → Bool) (l : List Char) {c : Char}
    (h : (l.dropWhile p).head? = some c) : p c = false := by
  induction l with
  | nil => simp [List.dropWhile] at h
  | cons a t ih =>
    by_cases ha : p a
    · rw [List.dropWhile_cons_of_pos ha] at h
      exact ih h
    · rw [List.dropWhile_cons_of_neg ha] at h
      simp at h
      subst h
      simpa using ha

theorem getLast?_dropWhile (p : Char → Bool) (l : List Char)
    (h : l.dropWhile p ≠ []) : (l.dropWhile p).getLast? = l.getLast? := by
  induction l with
  | nil => simp [List.dropWhile] at h
  | cons a t ih =>
    by_cases ha : p a
    · rw [List.dropWhile_cons_of_pos ha] at h ⊢
      rw [ih h]
      have ht : t ≠ [] := by
        intro he
        subst he
        simp [List.dropWhile] at h
      cases t with
      | nil => simp at ht
      | cons b u => simp [List.getLast?]
    · rw [List.dropWhile_cons_of_neg ha]

theorem trimChars_idem (l : List Char) :
    trimChars (trimChars l) = trimChars l := by
  unfold trimChars
  set p := isJsWs
  set m := l.dropWhile p with hm
  set n := (m.reverse).dropWhile p with hn
  have hA : n.reverse.dropWhile p = n.reverse := by
    cases hc : n.reverse with
    | nil => simp
    | cons c t =>
      have hcn : n ≠ [] := by
        intro h
        rw [h] at hc
        simp at hc
      have h1 : n.reverse.head? = some c := by rw [hc]; rfl
      rw [List.head?_reverse] at h1
      have h2 : n.getLast? = m.reverse.getLast? := getLast?_dropWhile p m.reverse hcn
      rw [List.getLast?_reverse] at h2
      have h3 : m.head? = some c := by rw [← h2, h1]
      have hp : p c = false := head?_dropWhile p l h3
      exact List.dropWhile_cons_of_neg (by simp [hp])
  rw [hA, List.reverse_reverse, hn, dropWhile_idem]

theorem jsTrim_idem (s : String) : jsTrim (jsTrim s) = jsTrim s := by
  unfold jsTrim
  exact congrArg String.mk (trimChars_idem s.data)

/-! ## ChangeCache lemmas -/

theorem ChangeCache.add_maxSize (c : ChangeCache) (s : String) (t : Nat) :
    (c.add s t).maxSize = c.maxSize := by
  unfold ChangeCache.add
  dsimp only
  split
  · rfl
  · split
    · rfl
    · split
      · rfl
      · rfl

theorem ChangeCache.add_length_le (c : ChangeCache) (s : String) (t : Nat)
    (h : c.changes.length ≤ c.maxSize) :
    (c.add s t).changes.length ≤ c.maxSize := by
  unfold ChangeCache.add
  dsimp only
  split
  · exact h
  · split
    · exact h
    · split
      · simp only [List.length_tail, List.length_append, List.length_singleton]
        omega
      · rename_i hle
        simp only [List.length_append, List.length_singleton, not_lt] at hle ⊢
        exact hle

theorem ChangeCache.reachable_size {c : ChangeCache} (h : c.Reachable) :
    c.changes.length ≤ c.maxSize := by
  induction h with
  | init n => simp [ChangeCache.new]
  | add s t _ ih =>
    have h2 := ChangeCache.add_length_le _ s t ih
    rw [ChangeCache.add_maxSize]
    exact h2
  | removeDeleted content _ ih =>
    exact le_trans (List.length_filter_le _ _) ih
  | clear _ ih => simp [ChangeCache.clear]

theorem ChangeCache.reachable_trimmed {c : ChangeCache} (h : c.Reachable) :
    ∀ ch ∈ c.changes, jsTrim ch.text = ch.text := by
  induction h with
  | init n => simp [ChangeCache.new]
  | @add c' s t _ ih =>
    intro ch hch
    revert hch
    unfold ChangeCache.add
    dsimp only
    split
    · exact ih ch
    · split
      · exact ih ch
      · split
        · intro hch
          replace hch : ch ∈ (c'.changes ++ [(⟨jsTrim s, t⟩ : Change)]).tail := hch
          have hmem : ch ∈ c'.changes ++ [(⟨jsTrim s, t⟩ : Change)] := List.mem_of_mem_tail hch
          rcases List.mem_append.mp hmem with h1 | h2
          · exact ih ch h1
          · simp only [List.mem_singleton] at h2
            rw [h2]
            exact jsTrim_idem s
        · intro hch
          replace hch : ch ∈ c'.changes ++ [(⟨jsTrim s, t⟩ : Change)] := hch
          rcases List.mem_append.mp hch with h1 | h2
          · exact ih ch h1
          · simp only [List.mem_singleton] at h2
            rw [h2]
            exact jsTrim_idem s
  | removeDeleted content _ ih =>
    intro ch hch
    exact ih ch (List.mem_of_mem_filter hch)
  | clear _ ih => simp [ChangeCache.clear]

theorem ChangeCache.add_of_trim_empty (c : ChangeCache) (s : String) (t : Nat)
    (h : (jsTrim s == "") = true) : c.add s t = c := by
  unfold ChangeCache.add
  simp [h]

theorem ChangeCache.add_of_mem (c : ChangeCache) (s : String) (t : Nat)
    (hne : (jsTrim s == "") = false)
    (hmem : (c.changes.any fun ch => ch.text == jsTrim s) = true) :
    c.add s t = c := by
  unfold ChangeCache.add
  simp [hne, hmem]

theorem ChangeCache.add_of_new (c : ChangeCache) (s : String) (t : Nat)
    (hne : (jsTrim s == "") = false)
    (hnd : (c.changes.any fun ch => ch.text == jsTrim s) = false) :
    c.add s t =
      if c.maxSize < (c.changes ++ [(⟨jsTrim s, t⟩ : Change)]).length then
        ⟨c.maxSize, (c.changes ++ [(⟨jsTrim s, t⟩ : Change)]).tail⟩
      else ⟨c.maxSize, c.changes ++ [(⟨jsTrim s, t⟩ : Change)]⟩ := by
  unfold ChangeCache.add
  simp [hne, hnd]

theorem ChangeCache.add_add_same (c : ChangeCache) (s : String) (t1 t2 : Nat) :
    (c.add s t1).add s t2 = c.add s t1 := by
  by_cases he : (jsTrim s == "") = true
  · rw [ChangeCache.add_of_trim_empty c s t1 he, ChangeCache.add_of_trim_empty c s t2 he]
  · have hne : (jsTrim s == "") = false := by simpa using he
    by_cases hm : (c.changes.any fun ch => ch.text == jsTrim s) = true
    · rw [ChangeCache.add_of_mem c s t1 hne hm, ChangeCache.add_of_mem c s t2 hne hm]
    · have hnd : (c.changes.any fun ch => ch.text == jsTrim s) = false := by simpa using hm
      rw [ChangeCache.add_of_new c s t1 hne hnd]
      by_cases hcap : c.maxSize < (c.changes ++ [(⟨jsTrim s, t1⟩ : Change)]).length
      · rw [if_pos hcap]
        cases hch : c.changes with
        | nil =>
          have hms : c.maxSize = 0 := by
            rw [hch] at hcap
            simp at hcap
            omega
          simp only [List.nil_append, List.tail_cons]
          rw [ChangeCache.add_of_new _ s t2 hne (by simp)]
          simp [hms]
        | cons a l =>
          apply ChangeCache.add_of_mem _ s t2 hne
          simp
      · rw [if_neg hcap]
        apply ChangeCache.add_of_mem _ s t2 hne
        simp

/-! ## Claim theorems for the ChangeCache -/

/-- Claim C5: for every sequence of ChangeCache operations the cache's
size never exceeds its configured capacity, and adding a distinct,
post-trim non-empty fragment to a cache already holding `maxSize`
fragments (at least one, so that an earliest-inserted fragment exists)
evicts exactly the fragment at index 0 while the new fragment is
appended at the end. -/
theorem changeCache_capacity_and_eviction :
    (∀ c : ChangeCache, c.Reachable → c.size ≤ c.maxSize) ∧
    (∀ (c : ChangeCache) (s : String) (t : Nat),
        0 < c.maxSize →
        c.changes.length = c.maxSize →
        (jsTrim s == "") = false →
        (c.changes.any fun ch => ch.text == jsTrim s) = false →
        (c.add s t).changes = c.changes.tail ++ [(⟨jsTrim s, t⟩ : Change)]) := by
  constructor
  · intro c h
    exact ChangeCache.reachable_size h
  · intro c s t hpos hlen hne hnd
    rw [ChangeCache.add_of_new c s t hne hnd]
    rw [if_pos (by simp [hlen])]
    cases hch : c.changes with
    | nil =>
      rw [hch] at hlen
      simp at hlen
      omega
    | cons a l => simp

/-- Witness for C5: capacity 2, inserting x, y, z in order ends with
contents y, z. -/
theorem changeCache_capacity_and_eviction_witness :
    (((ChangeCache.new 2).add "x" 0).add "y" 1).size ≤
      (((ChangeCache.new 2).add "x" 0).add "y" 1).maxSize ∧
    ((⟨2, [⟨"x", 0⟩, ⟨"y", 1⟩]⟩ : ChangeCache).add "z" 5).changes =
      [⟨"y", 1⟩, ⟨"z", 5⟩] := by
  constructor
  · exact changeCache_capacity_and_eviction.1 _
      (ChangeCache.Reachable.add "y" 1
        (ChangeCache.Reachable.add "x" 0 (ChangeCache.Reachable.init 2)))
  · have h := changeCache_capacity_and_eviction.2 ⟨2, [⟨"x", 0⟩, ⟨"y", 1⟩]⟩ "z" 5
      (by decide) (by decide) (by decide) (by decide)
    rw [h]
    decide

/-- Claim C6: `removeDeleted c` keeps exactly the fragments whose text is
a substring of `c`, preserving relative order; on reachable caches the
stored text is its own trim, so membership after removal is equivalent to
the trimmed text being a substring of the current content. -/
theorem changeCache_removeDeleted_spec :
    (∀ (c : ChangeCache) (content : String),
        (c.removeDeleted content).changes =
          c.changes.filter (fun ch => strIncludes content ch.text) ∧
        List.Sublist (c.removeDeleted content).changes c.changes) ∧
    (∀ (c : ChangeCache) (content : String), c.Reachable →
        ∀ ch, ch ∈ (c.removeDeleted content).changes ↔
          ch ∈ c.changes ∧ strIncludes content (jsTrim ch.text) = true) := by
  constructor
  · intro c content
    exact ⟨rfl, List.filter_sublist _⟩
  · intro c content hreach ch
    constructor
    · intro h
      replace h : ch ∈ c.changes.filter (fun ch => strIncludes content ch.text) := h
      obtain ⟨hmem, hkeep⟩ := List.mem_filter.mp h
      rw [ChangeCache.reachable_trimmed hreach ch hmem]
      exact ⟨hmem, hkeep⟩
    · rintro ⟨hmem, hsub⟩
      show ch ∈ c.changes.filter (fun ch => strIncludes content ch.text)
      apply List.mem_filter.mpr
      rw [ChangeCache.reachable_trimmed hreach ch hmem] at hsub
      exact ⟨hmem, hsub⟩

/-- Witness for C6: a cached fragment foo is pruned once the content no
longer contains it. -/
theorem changeCache_removeDeleted_spec_witness :
    (⟨"foo", 0⟩ : Change) ∈
        (((ChangeCache.new 3).add "foo" 0).removeDeleted "bar").changes ↔
      (⟨"foo", 0⟩ : Change) ∈ ((ChangeCache.new 3).add "foo" 0).changes ∧
        strIncludes "bar" (jsTrim "foo") = true :=
  changeCache_removeDeleted_spec.2 _ "bar"
    (ChangeCache.Reachable.add "foo" 0 (ChangeCache.Reachable.init 3)) ⟨"foo", 0⟩

/-- Claim C10: `add` is idempotent, adding the same fragment twice leaves
the cache exactly as adding it once, and an input that trims to the empty
string is never stored. -/
theorem changeCache_add_idempotent :
    (∀ (c : ChangeCache) (s : String) (t1 t2 : Nat),
        (c.add s t1).add s t2 = c.add s t1) ∧
    (∀ (c : ChangeCache) (s : String) (t : Nat),
        jsTrim s = "" → c.add s t = c) := by
  constructor
  · exact ChangeCache.add_add_same
  · intro c s t h
    exact ChangeCache.add_of_trim_empty c s t (by simp [h])

/-- Witness for C10: a duplicate add is a no-op and a whitespace-only add
stores nothing. -/
theorem changeCache_add_idempotent_witness :
    ((ChangeCache.new 3).add " x " 0).add " x " 1 = (ChangeCache.new 3).add " x " 0 ∧
    (ChangeCache.new 3).add "  " 0 = ChangeCache.new 3 :=
  ⟨changeCache_add_idempotent.1 (ChangeCache.new 3) " x " 0 1,
   changeCache_add_idempotent.2 (ChangeCache.new 3) "  " 0 (by decide)⟩

/-! ## The positional line differ (computeSimpleDiff)

`computeSimpleDiff` splits both texts on the newline character and walks
the new lines with their index, recording a plus-prefixed copy of every
new line whose old counterpart (if any) differs.
-/

/-- Pair each line with its array index, starting at `i`. -/
def enumLines : Nat → List String → List (Nat × String)
  | _, [] => []
  | i, x :: xs => (i, x) :: enumLines (i + 1) xs

/-- The indexed forEach loop of `computeSimpleDiff`: a new line at index
`i` is recorded as added when the old side has no line at `i` or a
different one. -/
def diffLoop (oldLines : List String) : List String → Nat → List String
  | [], _ => []
  | line :: rest, i =>
    if oldLines[i]? = some line then diffLoop oldLines rest (i + 1)
    else ("+ " ++ line) :: diffLoop oldLines rest (i + 1)

/-- `computeSimpleDiff(oldText, newText)` from the source. -/
def computeSimpleDiff (oldText newText : String) : String :=
  joinSep "\n" (diffLoop (splitNl oldText) (splitNl newText) 0)

theorem diffLoop_eq_filterMap (ol : List String) (nl : List String) (i : Nat) :
    diffLoop ol nl i = (enumLines i nl).filterMap
      (fun p => if ol[p.1]? = some p.2 then none else some ("+ " ++ p.2)) := by
  induction nl generalizing i with
  | nil => rfl
  | cons line rest ih =>
    by_cases h : ol[i]? = some line
    · simp [diffLoop, enumLines, List.filterMap_cons, h, ih]
    · simp [diffLoop, enumLines, List.filterMap_cons, h, ih]

theorem diffLoop_self (ol : List String) :
    ∀ (l : List String) (i : Nat),
      (∀ j, j < l.length → ol[i + j]? = l[j]?) → diffLoop ol l i = [] := by
  intro l
  induction l with
  | nil => intro i _; rfl
  | cons line rest ih =>
    intro i h
    have h0 : ol[i]? = some line := by
      have := h 0 (by simp)
      simpa using this
    rw [diffLoop, if_pos h0]
    apply ih
    intro j hj
    have := h (j + 1) (by simp; omega)
    rw [show i + (j + 1) = i + 1 + j by omega] at this
    simpa using this

/-- Claim C7: the positional line diff records the new line at index `i`
as added exactly when it differs from the old line at index `i`
(including when the old side has no line there), and diffing a text
against itself yields no added lines. -/
theorem computeSimpleDiff_spec :
    (∀ oldText newText : String,
        computeSimpleDiff oldText newText =
          joinSep "\n" ((enumLines 0 (splitNl newText)).filterMap
            (fun p => if (splitNl oldText)[p.1]? = some p.2 then none
                      else some ("+ " ++ p.2)))) ∧
    (∀ T : String, computeSimpleDiff T T = "") := by
  constructor
  · intro oldText newText
    unfold computeSimpleDiff
    rw [diffLoop_eq_filterMap]
  · intro T
    unfold computeSimpleDiff
    rw [diffLoop_self (splitNl T) (splitNl T) 0 (fun j _ => by simp)]
    rfl

/-! ## The Mode A edit-event pipeline (onEvent with the baselines map)

The watcher hands `(kind, relativeFile)` to `onEvent`, which reads the
current content, asks git whether the file exists in HEAD and for its
HEAD content and working diff, computes the local positional diff against
the stored baseline (falling back to the HEAD content), stores the
current content as the new baseline, and unconditionally hands a report
to `LiveCoder.summarizeFile`.  File reading and the git collaborator are
external: their results travel inside the event record.
-/

/-- JavaScript `Map.prototype.get`, over an association list. -/
def mapGet (m : List (String × String)) (k : String) : Option String :=
  (m.find? (fun p => p.1 == k)).map (fun p => p.2)

/-- JavaScript `Map.prototype.set`: replace the entry for the key if
present, otherwise append a fresh one. -/
def mapSet (m : List (String × String)) (k v : String) : List (String × String) :=
  if m.any (fun p => p.1 == k) then
    m.map (fun p => if p.1 == k then (k, v) else p)
  else m ++ [(k, v)]

/-- One observed edit event, with the collaborator results it sees: the
absolute path, the content read from disk, whether git knows the file in
HEAD, the HEAD content shown by git, and the working diff from git. -/
structure EditEvent where
  abs : String
  content : String
  existsInHEAD : Bool
  headShown : String
  gitDiff : String
deriving DecidableEq

/-- The triple handed to `LiveCoder.summarizeFile` for prompting. -/
structure Report where
  fullContent : String
  gitDiff : String
  localDiff : String
deriving DecidableEq

/-- Mode A `onEvent`: baseline lookup with HEAD fallback, local diff,
baseline update, and an unconditional report. -/
def onEvent (m : List (String × String)) (e : EditEvent) :
    List (String × String) × Report :=
  let headContent := if e.existsInHEAD then e.headShown else ""
  let lastBaseline := (mapGet m e.abs).getD headContent
  let localDiff := computeSimpleDiff lastBaseline e.content
  let m2 := mapSet m e.abs e.content
  (m2, ⟨e.content, e.gitDiff, localDiff⟩)

theorem find?_append_of_no_match (l : List (String × String)) (k v : String)
    (h : (l.any fun p => p.1 == k) = false) :
    List.find? (fun p => p.1 == k) (l ++ [(k, v)]) = some (k, v) := by
  induction l with
  | nil => simp [List.find?]
  | cons a t ih =>
    simp only [List.any_cons, Bool.or_eq_false_iff] at h
    obtain ⟨h1, h2⟩ := h
    rw [List.cons_append, List.find?_cons_of_neg _ (by simp [h1])]
    exact ih h2

theorem find?_map_of_match (l : List (String × String)) (k v : String)
    (h : (l.any fun p => p.1 == k) = true) :
    List.find? (fun p => p.1 == k)
      (l.map (fun p => if p.1 == k then (k, v) else p)) = some (k, v) := by
  induction l with
  | nil => simp at h
  | cons a t ih =>
    by_cases ha : (a.1 == k) = true
    · simp only [List.map_cons, if_pos ha]
      rw [List.find?_cons_of_pos _ (by simp)]
    · have ht : (t.any fun p => p.1 == k) = true := by
        simp only [List.any_cons, ha] at h
        simpa using h
      simp only [List.map_cons, if_neg ha]
      rw [List.find?_cons_of_neg _ (by simp [ha])]
      exact ih ht

theorem mapGet_mapSet_self (m : List (String × String)) (k v : String) :
    mapGet (mapSet m k v) k = some v := by
  unfold mapSet
  split
  · rename_i h
    unfold mapGet
    rw [find?_map_of_match m k v h]
    rfl
  · rename_i h
    unfold mapGet
    rw [find?_append_of_no_match m k v (eq_false_of_ne_true h)]
    rfl

/-- Claim C8: on every Mode A edit event the local diff is computed
against the stored baseline if present, else the HEAD content (empty
when the file is not committed); the diff is rendered as plus-prefixed
added lines; the stored baseline becomes the current content; and a
report carrying the full content, the git diff and the local diff is
produced unconditionally. -/
theorem onEvent_mode_a_spec :
    ∀ (m : List (String × String)) (e : EditEvent),
      (onEvent m e).2.fullContent = e.content ∧
      (onEvent m e).2.gitDiff = e.gitDiff ∧
      (onEvent m e).2.localDiff =
        computeSimpleDiff
          ((mapGet m e.abs).getD (if e.existsInHEAD then e.headShown else ""))
          e.content ∧
      (onEvent m e).2.localDiff =
        joinSep "\n"
          ((enumLines 0 (splitNl e.content)).filterMap
            (fun p =>
              if (splitNl ((mapGet m e.abs).getD
                    (if e.existsInHEAD then e.headShown else "")))[p.1]? =
                  some p.2
              then none else some ("+ " ++ p.2))) ∧
      mapGet (onEvent m e).1 e.abs = some e.content := by
  intro m e
  refine ⟨rfl, rfl, rfl, ?_, mapGet_mapSet_self m e.abs e.content⟩
  show computeSimpleDiff _ _ = _
  unfold computeSimpleDiff
  rw [diffLoop_eq_filterMap]

/-! ## Per-path interleaving (claim C9)

The watcher dispatches `onEvent` without awaiting it and without any
per-path queue or mutex.  Every `onEvent` call suspends (file read, git
lookups) before it reads and writes the baselines map, so the cooperative
runtime may resume in-flight calls in any order: the reachable executions
are exactly the runs of the pending events in an arbitrary permutation of
their arrival order.
-/

/-- Run a list of edit events to completion in the given resume order,
threading the baselines map. -/
def runEvents (m : List (String × String)) : List EditEvent → List (String × String)
  | [] => m
  | e :: rest => runEvents (onEvent m e).1 rest

/-- First arrival: the same path with older content A. -/
def raceFirst : EditEvent := ⟨"/f", "A", false, "", ""⟩

/-- Second arrival: the same path with newer content B. -/
def raceSecond : EditEvent := ⟨"/f", "B", false, "", ""⟩

/-- Claim C9 evidence: the dispatch admits the schedule that completes
the second event before the first resumes (a permutation of the arrival
order, reachable because each call suspends before touching the map);
that schedule leaves the STALE baseline A, while serialized arrival-order
processing leaves B.  No per-path serialization exists in the code. -/
theorem onEvent_same_path_race :
    List.Perm [raceSecond, raceFirst] [raceFirst, raceSecond] ∧
    mapGet (runEvents [] [raceSecond, raceFirst]) "/f" = some "A" ∧
    mapGet (runEvents [] [raceFirst, raceSecond]) "/f" = some "B" ∧
    ("A" : String) ≠ "B" := by
  refine ⟨List.Perm.swap raceFirst raceSecond [], ?_, ?_, by decide⟩
  · decide
  · decide

/-! ## JSON values and JSON.parse

The streaming client hands each line to `JSON.parse` and then reads the
`response` and `done` properties with JavaScript truthiness.  The NDJSON
records of the inference protocol are flat objects of scalars, so the
parser below models `JSON.parse` on that fragment: objects whose values
are strings (with the single-character escapes), booleans, null and
integer numbers, plus bare top-level scalars.  Inputs outside this
fragment (nested objects, arrays, fractional numbers, unicode escapes)
do not occur in the streams considered and are rejected.  Duplicate keys
follow `JSON.parse`: the last occurrence wins.
-/

/-- A parsed JSON value. -/
inductive JValue where
  | jnull : JValue
  | jbool (b : Bool) : JValue
  | jnum (n : Int) : JValue
  | jstr (s : String) : JValue
  | jobj (fields : List (String × JValue)) : JValue

/-- Property lookup where the last duplicate key wins. -/
def lookupLast : List (String × JValue) → String → Option JValue
  | [], _ => none
  | (k2, v) :: rest, k =>
    match lookupLast rest k with
    | some r => some r
    | none => if k2 == k then some v else none

/-- JavaScript property access `obj[k]` on a parsed value: `undefined`
(here `none`) unless the value is an object with the key. -/
def getField : JValue → String → Option JValue
  | .jobj fs, k => lookupLast fs k
  | _, _ => none

/-- JavaScript truthiness of a possibly-absent value. -/
def truthy : Option JValue → Bool
  | none => false
  | some .jnull => false
  | some (.jbool b) => b
  | some (.jnum n) => n != 0
  | some (.jstr s) => !(s == "")
  | some (.jobj _) => true

/-- JavaScript `String(v)`. -/
def jsToString : JValue → String
  | .jnull => "null"
  | .jbool true => "true"
  | .jbool false => "false"
  | .jnum n => toString n
  | .jstr s => s
  | .jobj _ => "[object Object]"

/-- Skip JSON whitespace. -/
def skipWs : List Char → List Char
  | [] => []
  | c :: cs =>
    if c == ' ' || c == '\t' || c == '\n' || c == '\r' then skipWs cs
    else c :: cs

/-- The single-character JSON string escapes. -/
def escFor (c : Char) : Option Char :=
  match c with
  | '\\' => some '\\'
  | '"' => some '"'
  | 'n' => some '\n'
  | 't' => some '\t'
  | 'r' => some '\r'
  | '/' => some '/'
  | 'b' => some (Char.ofNat 8)
  | 'f' => some (Char.ofNat 12)
  | _ => none

/-- Parse the remainder of a JSON string after its opening quote,
returning the decoded characters and the rest of the input. -/
def parseStrBody : List Char → Option (List Char × List Char)
  | [] => none
  | c :: cs =>
    if c == '"' then some ([], cs)
    else if c == '\\' then
      match cs with
      | [] => none
      | e :: cs2 =>
        match escFor e with
        | none => none
        | some ch =>
          match parseStrBody cs2 with
          | none => none
          | some (a, r) => some (ch :: a, r)
    else
      match parseStrBody cs with
      | none => none
      | some (a, r) => some (c :: a, r)

/-- Take a maximal run of decimal digits. -/
def takeDigits : List Char → List Char × List Char
  | [] => ([], [])
  | c :: cs =>
    if c.isDigit then
      match takeDigits cs with
      | (d, r) => (c :: d, r)
    else ([], c :: cs)

/-- Numeric value of a digit run. -/
def digitsVal (l : List Char) : Nat :=
  l.foldl (fun a c => a * 10 + (c.toNat - 48)) 0

/-- Parse one scalar JSON value (string, boolean, null or integer). -/
def parseScalar : List Char → Option (JValue × List Char)
  | [] => none
  | c :: cs =>
    if c == '"' then
      match parseStrBody cs with
      | some (a, r) => some (.jstr ⟨a⟩, r)
      | none => none
    else if c == 't' then
      match cs with
      | 'r' :: 'u' :: 'e' :: r => some (.jbool true, r)
      | _ => none
    else if c == 'f' then
      match cs with
      | 'a' :: 'l' :: 's' :: 'e' :: r => some (.jbool false, r)
      | _ => none
    else if c == 'n' then
      match cs with
      | 'u' :: 'l' :: 'l' :: r => some (.jnull, r)
      | _ => none
    else if c == '-' then
      match takeDigits cs with
      | ([], _) => none
      | (ds, r) => some (.jnum (-(digitsVal ds : Int)), r)
    else if c.isDigit then
      match takeDigits (c :: cs) with
      | (ds, r) => some (.jnum (digitsVal ds), r)
    else none

/-- Parse the members of a JSON object (after its opening brace, first
member not yet consumed), fuelled by the input length. -/
def parseFieldsFlat : Nat → List Char → List (String × JValue) →
    Option (List (String × JValue) × List Char)
  | 0, _, _ => none
  | Nat.succ fuel, s, acc =>
    match skipWs s with
    | '"' :: cs =>
      match parseStrBody cs with
      | none => none
      | some (k, r) =>
        match skipWs r with
        | ':' :: r2 =>
          match parseScalar (skipWs r2) with
          | none => none
          | some (v, r3) =>
            match skipWs r3 with
            | ',' :: r4 => parseFieldsFlat fuel r4 (acc ++ [(⟨k⟩, v)])
            | d :: r4 =>
              if d == Char.ofNat 125 then some (acc ++ [(⟨k⟩, v)], r4)
              else none
            | [] => none
        | _ => none
    | _ => none

/-- `JSON.parse` on one line: a whole-input parse of an object of
scalars, or a bare scalar.  Returns `none` exactly when `JSON.parse`
would throw on the fragment described above. -/
def jsonParse (s : String) : Option JValue :=
  match skipWs s.data with
  | [] => none
  | c :: cs =>
    if c == Char.ofNat 123 then
      match skipWs cs with
      | d :: ds =>
        if d == Char.ofNat 125 then
          if (skipWs ds).isEmpty then some (.jobj []) else none
        else
          match parseFieldsFlat (s.length + 1) (d :: ds) [] with
          | some (fs, r) => if (skipWs r).isEmpty then some (.jobj fs) else none
          | none => none
      | [] => none
    else
      match parseScalar (c :: cs) with
      | some (v, r) => if (skipWs r).isEmpty then some v else none
      | none => none

/-! ## The streaming client (LiveCoder.generate)

On a response status below 400 the client attaches a data handler; each
arriving chunk is split on optional-carriage-return newlines, blank
pieces are dropped, and each line is JSON-parsed inside one try block:
a truthy `response` field is written out, a truthy `done` resolves the
completion promise.  The catch around the whole loop writes the raw
chunk text instead.  Resolving does not detach the handler or destroy
the stream, so subsequent lines and chunks are still processed; the
`end` event resolves in any case.
-/

/-- Drop one trailing carriage return (the piece was followed by a
newline in the original text, so the regex consumed the pair). -/
def stripCr (l : List Char) : List Char :=
  match l.reverse with
  | '\r' :: rest => rest.reverse
  | _ => l

/-- Apply `stripCr` to every piece except the last (the last piece was
not followed by a newline). -/
def mapInit : List (List Char) → List (List Char)
  | [] => []
  | [x] => [x]
  | x :: y :: t => stripCr x :: mapInit (y :: t)

/-- JavaScript `chunk.split(regex of optional carriage return followed
by newline)`. -/
def splitJsLines (s : String) : List String :=
  (mapInit (splitOnNl s.data)).map (fun l => (⟨l⟩ : String))

/-- `.filter(Boolean)`: keep the non-empty lines. -/
def nonBlankLines (s : String) : List String :=
  (splitJsLines s).filter (fun l => !(l == ""))

/-- The token a line contributes when it parses: the stringified
`response` field if truthy, else nothing. -/
def lineToken (l : String) : Option String :=
  match jsonParse l with
  | none => none
  | some v =>
    if truthy (getField v "response") then
      some (jsToString ((getField v "response").getD .jnull))
    else none

/-- Whether a line parses to a record with a truthy `done` flag. -/
def lineDone (l : String) : Bool :=
  match jsonParse l with
  | none => false
  | some v => truthy (getField v "done")

/-- The for-loop over one chunk's lines inside the try block: emitted
tokens, whether `resolve` was called, and whether `JSON.parse` threw
(aborting the loop for the remaining lines of this chunk). -/
def runLines : List String → List String × Bool × Bool
  | [] => ([], false, false)
  | line :: rest =>
    match jsonParse line with
    | none => ([], false, true)
    | some v =>
      let toks :=
        if truthy (getField v "response") then
          [jsToString ((getField v "response").getD .jnull)]
        else []
      let d := truthy (getField v "done")
      match runLines rest with
      | (ts, ds, f) => (toks ++ ts, d || ds, f)

/-- One `data` event: split, drop blanks, run the loop; on a parse throw
the catch writes the raw chunk text after whatever was already written. -/
def processChunk (chunk : String) : List String × Bool :=
  match runLines (nonBlankLines chunk) with
  | (toks, d, failed) => if failed then (toks ++ [chunk], d) else (toks, d)

/-- The request-level failures `generate` can reject with. -/
inductive GenError where
  | upstreamHttp (code : Nat) : GenError
deriving DecidableEq

/-- `LiveCoder.generate` response handling: a status of at least 400
rejects with the status code before the data handler is attached (the
body is drained unprocessed); otherwise every chunk's data event runs
and the `end` event resolves.  The result is the written tokens and the
request outcome. -/
def generate (status : Nat) (chunks : List String) :
    List String × Except GenError Unit :=
  if 400 ≤ status then ([], .error (.upstreamHttp status))
  else ((chunks.map (fun c => (processChunk c).1)).flatten, .ok ())

/-- The tokens `generate` writes to standard output, in order. -/
def emittedTokens (status : Nat) (chunks : List String) : List String :=
  (generate status chunks).1

/-- The longest prefix of a chunk's lines that all parse. -/
def parseOkPrefix (lines : List String) : List String :=
  lines.takeWhile (fun l => (jsonParse l).isSome)

/-- Modelled from the claim wording of C2, not from the source: once a
record with a truthy `done` flag has been seen, no further bytes of the
response are read, so the emitted tokens stop with that record's. -/
def stopAtDoneTokens : List String → List String
  | [] => []
  | line :: rest =>
    match jsonParse line with
    | none => []
    | some v =>
      let toks :=
        if truthy (getField v "response") then
          [jsToString ((getField v "response").getD .jnull)]
        else []
      if truthy (getField v "done") then toks
      else toks ++ stopAtDoneTokens rest

/-- The token stream the claim's stop-at-done reading would produce. -/
def claimEmitted (chunks : List String) : List String :=
  stopAtDoneTokens ((chunks.map nonBlankLines).flatten)

theorem runLines_all_parse :
    ∀ lines : List String, (∀ l ∈ lines, (jsonParse l).isSome = true) →
      runLines lines = (lines.filterMap lineToken, lines.any lineDone, false) := by
  intro lines
  induction lines with
  | nil => intro _; rfl
  | cons line rest ih =>
    intro h
    have h1 : (jsonParse line).isSome = true := h line (by simp)
    obtain ⟨v, hv⟩ := Option.isSome_iff_exists.mp h1
    simp only [runLines, hv]
    rw [ih (fun l hl => h l (by simp [hl]))]
    simp only [List.filterMap_cons, List.any_cons, lineToken, lineDone, hv]
    by_cases ht : truthy (getField v "response") = true
    · simp [ht]
    · simp [ht]

theorem runLines_with_failure :
    ∀ lines : List String,
      lines.all (fun l => (jsonParse l).isSome) = false →
      runLines lines =
        ((parseOkPrefix lines).filterMap lineToken,
         (parseOkPrefix lines).any lineDone, true) := by
  intro lines
  induction lines with
  | nil => intro h; simp at h
  | cons line rest ih =>
    intro h
    cases hv : jsonParse line with
    | none =>
      simp only [runLines, hv]
      simp [parseOkPrefix, List.takeWhile_cons, hv]
    | some v =>
      have hrest : rest.all (fun l => (jsonParse l).isSome) = false := by
        simp only [List.all_cons, hv] at h
        simpa using h
      simp only [runLines, hv]
      rw [ih hrest]
      simp only [parseOkPrefix, List.takeWhile_cons, hv, Option.isSome_some,
        if_true, List.filterMap_cons, List.any_cons, lineToken, lineDone]
      by_cases ht : truthy (getField v "response") = true
      · simp [ht]
      · simp [ht]

theorem flatten_map_filterMap (g : String → Option String)
    (f : String → List String) (cs : List String) :
    (cs.map (fun c => (f c).filterMap g)).flatten =
      ((cs.map f).flatten).filterMap g := by
  induction cs with
  | nil => rfl
  | cons a t ih => simp [List.filterMap_append, ih]

/-- Claim C3: a response status of at least 400 makes generate fail with
the upstream HTTP error carrying that status; the body is not processed
and no tokens are emitted. -/
theorem generate_http_error :
    ∀ (status : Nat) (chunks : List String), 400 ≤ status →
      generate status chunks = ([], Except.error (GenError.upstreamHttp status)) := by
  intro status chunks h
  unfold generate
  rw [if_pos h]

/-- Witness for C3: status 500 fails with code 500 and zero tokens. -/
theorem generate_http_error_witness :
    generate 500 ["\x7b\"response\":\"hi\",\"done\":true\x7d\n"] =
      ([], Except.error (GenError.upstreamHttp 500)) :=
  generate_http_error 500 _ (by decide)

/-- Claim C2 (amended): on a successful response every record's truthy
response token is emitted immediately and in arrival order; a done
record resolves the completion promise but reading does not stop, so
records after it are still processed; for the two-record example body
the tokens are exactly hi then the exclamation mark. -/
theorem generate_tokens_in_order :
    (∀ (status : Nat) (chunks : List String),
        status < 400 →
        (∀ c ∈ chunks, ∀ l ∈ nonBlankLines c, (jsonParse l).isSome = true) →
        emittedTokens status chunks =
          ((chunks.map nonBlankLines).flatten).filterMap lineToken) ∧
    emittedTokens 200
        ["\x7b\"response\":\"hi\",\"done\":false\x7d\n\x7b\"response\":\"!\",\"done\":true\x7d\n"] =
      ["hi", "!"] := by
  constructor
  · intro status chunks hs hall
    unfold emittedTokens generate
    rw [if_neg (by omega)]
    dsimp only
    have hmap : chunks.map (fun c => (processChunk c).1) =
        chunks.map (fun c => (nonBlankLines c).filterMap lineToken) := by
      apply List.map_congr_left
      intro c hc
      unfold processChunk
      rw [runLines_all_parse (nonBlankLines c) (hall c hc)]
      rfl
    rw [hmap, flatten_map_filterMap]

  · decide

/-- Witness for C2 (amended): the example body, all of whose lines
parse, emits exactly the filterMap of its lines. -/
theorem generate_tokens_in_order_witness :
    emittedTokens 200
        ["\x7b\"response\":\"hi\",\"done\":false\x7d\n\x7b\"response\":\"!\",\"done\":true\x7d\n"] =
      (((["\x7b\"response\":\"hi\",\"done\":false\x7d\n\x7b\"response\":\"!\",\"done\":true\x7d\n"]).map
          nonBlankLines).flatten).filterMap lineToken :=
  generate_tokens_in_order.1 200 _ (by decide) (by decide)

/-- Counterexample to C2 as stated: with a record after the done record,
the code keeps reading and emits its token too, while the claim's
stop-at-done reading emits only the first. -/
theorem generate_reads_past_done :
    emittedTokens 200
        ["\x7b\"response\":\"a\",\"done\":true\x7d\n\x7b\"response\":\"b\",\"done\":false\x7d\n"] =
      ["a", "b"] ∧
    claimEmitted
        ["\x7b\"response\":\"a\",\"done\":true\x7d\n\x7b\"response\":\"b\",\"done\":false\x7d\n"] =
      ["a"] ∧
    (["a", "b"] : List String) ≠ ["a"] := by
  refine ⟨by decide, by decide, by decide⟩

/-- Claim C4 (amended): a parse failure never aborts the request, but
recovery is per chunk, not per line: the valid lines before the failing
line keep their tokens, the raw chunk text is emitted, and the rest of
that chunk's lines are skipped. -/
theorem generate_raw_chunk_fallback :
    (∀ (status : Nat) (chunks : List String), status < 400 →
        (generate status chunks).2 = Except.ok ()) ∧
    (∀ chunk : String,
        (nonBlankLines chunk).all (fun l => (jsonParse l).isSome) = false →
        processChunk chunk =
          ((parseOkPrefix (nonBlankLines chunk)).filterMap lineToken ++ [chunk],
           (parseOkPrefix (nonBlankLines chunk)).any lineDone)) := by
  constructor
  · intro status chunks hs
    unfold generate
    rw [if_neg (by omega)]
  · intro chunk h
    unfold processChunk
    rw [runLines_with_failure _ h]
    rfl

/-- Witness for C4 (amended): a successful status with an unparsable
chunk still completes, and the chunk falls back to raw text. -/
theorem generate_raw_chunk_fallback_witness :
    (generate 200 ["bad"]).2 = Except.ok () ∧
    processChunk "bad" =
      ((parseOkPrefix (nonBlankLines "bad")).filterMap lineToken ++ ["bad"],
       (parseOkPrefix (nonBlankLines "bad")).any lineDone) :=
  ⟨generate_raw_chunk_fallback.1 200 ["bad"] (by decide),
   generate_raw_chunk_fallback.2 "bad" (by decide)⟩

/-- Counterexample to C4 as stated: a valid record after a bad line in
the same chunk loses its token; only the raw chunk text is emitted. -/
theorem generate_skips_valid_line_after_bad :
    emittedTokens 200 ["bad\n\x7b\"response\":\"ok\",\"done\":false\x7d"] =
      ["bad\n\x7b\"response\":\"ok\",\"done\":false\x7d"] ∧
    "ok" ∉ emittedTokens 200 ["bad\n\x7b\"response\":\"ok\",\"done\":false\x7d"] := by
  refine ⟨by decide, by decide⟩

/-- Claim C1 evidence: delivered in one chunk, the record's token hi is
emitted exactly once; split across a chunk boundary, no partial-line
buffering happens: both fragments fail to parse, the raw fragment texts
are emitted instead, and the token hi is never emitted. -/
theorem generate_split_record_loses_token :
    emittedTokens 200 ["\x7b\"response\":\"hi\",\"done\":true\x7d\n"] = ["hi"] ∧
    emittedTokens 200 ["\x7b\"response\":\"hi\",\"do", "ne\":true\x7d\n"] =
      ["\x7b\"response\":\"hi\",\"do", "ne\":true\x7d\n"] ∧
    "hi" ∉ emittedTokens 200 ["\x7b\"response\":\"hi\",\"do", "ne\":true\x7d\n"] := by
  refine ⟨by decide, by decide, by decide⟩

end CodeBuddy
